import Mathlib

/-!
Shallow embedding of the data-cleaning operations of
scripts/cleaner.py (class DataCleaner) from the User-Analytics-in-Telecom-Industry
repository, together with proofs about the claims of its specification.

A pandas DataFrame is modelled as an ordered list of named, dtype-tagged
columns plus a list of rows; a cell is either null (None/NaN) or a value.
Machine floats are idealised as exact rationals; the concrete examples in
the claims only involve arithmetic that is exact in binary floating point,
so the idealisation is faithful on them.
-/

/-- Column dtype tags mirroring the pandas dtype classes the source selects on:
select_dtypes(include=["number"]) versus include=["object", "datetime64[ns]"]. -/
inductive Dtype where
  | numeric
  | object
  | datetime
  deriving DecidableEq

/-- A cell value: a number, a string, or the un-invoked Series.median bound-method
object that lines 190-191 of cleaner.py store into a column (the source writes
df[col].median without parentheses, so the replacement is a function reference,
not a number). -/
inductive Val where
  | num (q : ℚ)
  | str (s : String)
  | medianFn
  deriving DecidableEq

/-- A cell of a DataFrame: none models a null (None / NaN). -/
abbrev Cell := Option Val

/-- A pandas DataFrame: named, dtype-tagged columns and a list of rows. -/
structure DF where
  cols : List (String × Dtype)
  rows : List (List Cell)
  deriving DecidableEq

/-- Well-formedness of a DataFrame (the Dataset invariant of the spec):
every row has one cell per column and column names are unique. -/
def DF.WF (d : DF) : Prop :=
  (∀ r ∈ d.rows, r.length = d.cols.length) ∧ (d.cols.map Prod.fst).Nodup

/-- Index of the first column with the given name (pandas df[col] lookup). -/
def colIdxAux (c : String) : List (String × Dtype) → Option ℕ
  | [] => none
  | p :: ps => if p.1 = c then some 0 else (colIdxAux c ps).map (· + 1)

/-- Resolve a column name to its position; none models a KeyError. -/
def DF.colIdx (d : DF) (c : String) : Option ℕ :=
  colIdxAux c d.cols

/-- The cells of column i, top to bottom. -/
def DF.getColAt (d : DF) (i : ℕ) : List Cell :=
  d.rows.map (fun r => r.getD i none)

/-- Replace column i by f applied to its current cells (df[col] = expr). -/
def DF.mapColAt (d : DF) (i : ℕ) (f : List Cell → List Cell) : DF :=
  { d with rows := (d.rows.zip (f (d.getColAt i))).map (fun rv => rv.1.set i rv.2) }

/-- Positions of the numeric columns, in order. -/
def DF.numericIdxs (d : DF) : List ℕ :=
  (List.range d.cols.length).filter
    (fun i => decide ((d.cols.getD i ("", Dtype.object)).2 = Dtype.numeric))

/-- Positions of the categorical (object or datetime) columns, in order. -/
def DF.catIdxs (d : DF) : List ℕ :=
  (List.range d.cols.length).filter
    (fun i => decide ((d.cols.getD i ("", Dtype.numeric)).2 = Dtype.object ∨
                      (d.cols.getD i ("", Dtype.numeric)).2 = Dtype.datetime))

/-- DataCleaner.get_numerical_columns: names of the numeric columns. -/
def get_numerical_columns (d : DF) : List String :=
  (d.cols.filter (fun p => decide (p.2 = Dtype.numeric))).map Prod.fst

/-- DataCleaner.get_categorical_columns: names of the object/datetime columns. -/
def get_categorical_columns (d : DF) : List String :=
  (d.cols.filter (fun p => decide (p.2 = Dtype.object ∨ p.2 = Dtype.datetime))).map Prod.fst

/-- Exceptions the modelled operations can raise. -/
inductive Err where
  | keyError
  | typeError
  | indexError
  | methodUnknown
  deriving DecidableEq

deriving instance DecidableEq for Except

/-- Drop rows that duplicate an earlier row, keeping first occurrences
(pandas drop_duplicates with keep="first"); seen accumulates earlier rows. -/
def dropDupAux (seen : List (List Cell)) : List (List Cell) → List (List Cell)
  | [] => []
  | r :: rs => if r ∈ seen then dropDupAux seen rs else r :: dropDupAux (r :: seen) rs

/-- DataCleaner.drop_duplicate: df.drop_duplicates(inplace=True). -/
def drop_duplicate (d : DF) : DF :=
  { d with rows := dropDupAux [] d.rows }

/-- Round a rational to the nearest integer, ties to even (Python round). -/
def roundHalfEven (x : ℚ) : ℤ :=
  if Int.fract x < 1/2 then ⌊x⌋
  else if 1/2 < Int.fract x then ⌊x⌋ + 1
  else if ⌊x⌋ % 2 = 0 then ⌊x⌋ else ⌊x⌋ + 1

/-- Python round(x, 2). -/
def pyRound2 (x : ℚ) : ℚ :=
  (roundHalfEven (x * 100) : ℚ) / 100

/-- DataCleaner.percent_missing_column: round(missing_count / col_len * 100, 2).
The outer error is the re-raised KeyError for an absent column; the inner
none is the NaN that numpy returns for the 0 / 0 division on a 0-row column. -/
def percent_missing_column (d : DF) (col : String) : Except Err (Option ℚ) :=
  match d.colIdx col with
  | none => .error .keyError
  | some i =>
    let cells := d.getColAt i
    if cells.length = 0 then .ok none
    else .ok (some (pyRound2 (((cells.countP (fun c => decide (c = none))) : ℚ) /
                              (cells.length : ℚ) * 100)))

/-- Forward fill: each null takes the nearest earlier non-null value (ffill). -/
def ffillCells : Cell → List Cell → List Cell
  | _, [] => []
  | last, c :: cs =>
    match c with
    | some v => some v :: ffillCells (some v) cs
    | none => last :: ffillCells last cs

/-- Series.fillna(method="ffill"). -/
def ffill (cs : List Cell) : List Cell := ffillCells none cs

/-- Series.fillna(method="bfill"): forward fill of the reversed column. -/
def bfill (cs : List Cell) : List Cell := (ffillCells none cs.reverse).reverse

/-- Comparison used by pandas to sort the multimodal candidates of mode(). -/
def Val.leB : Val → Val → Bool
  | .num a, .num b => decide (a ≤ b)
  | .num _, _ => true
  | .str _, .num _ => false
  | .str a, .str b => decide (a ≤ b)
  | .str _, .medianFn => true
  | .medianFn, .medianFn => true
  | .medianFn, _ => false

/-- The non-null values attaining the maximal multiplicity in the column
(pandas Series.mode with dropna=True, before sorting). -/
def modeCandidates (cs : List Cell) : List Val :=
  let vals := (cs.filterMap id).dedup
  let maxC := (vals.map (fun v => cs.countP (fun c => decide (c = some v)))).foldl max 0
  vals.filter (fun v => decide (cs.countP (fun c => decide (c = some v)) = maxC))

/-- Series.mode()[0]: the least most-frequent non-null value; none models the
IndexError/KeyError of indexing position 0 of an empty mode result. -/
def mode0 (cs : List Cell) : Option Val :=
  match modeCandidates cs with
  | [] => none
  | v :: vs => some (vs.foldl (fun a b => if Val.leB a b then a else b) v)

/-- Fill the nulls of a column with a constant value (Series.fillna(value)). -/
def fillConst (v : Val) (cs : List Cell) : List Cell :=
  cs.map (fun c => if c = none then some v else c)

/-- Mode-fill the categorical columns left to right; the first all-null column
raises when position 0 of the empty mode result is indexed. -/
def fillModeCols : List ℕ → DF → Except Err DF
  | [], d => .ok d
  | i :: is, d =>
    match mode0 (d.getColAt i) with
    | none => .error .indexError
    | some v => fillModeCols is (d.mapColAt i (fillConst v))

/-- DataCleaner.fill_missing_values_categorical. -/
def fill_missing_values_categorical (d : DF) (method : String) : Except Err DF :=
  let cat := d.catIdxs
  if method = "ffill" then .ok (cat.foldl (fun acc i => acc.mapColAt i ffill) d)
  else if method = "bfill" then .ok (cat.foldl (fun acc i => acc.mapColAt i bfill) d)
  else if method = "mode" then fillModeCols cat d
  else .error .methodUnknown

/-- The numeric entries of a column, nulls (and non-numbers) skipped, as
pandas numeric reductions skip NaN. -/
def numsOf (cs : List Cell) : List ℚ :=
  cs.filterMap (fun c => match c with | some (.num q) => some q | _ => none)

/-- Series.mean(): arithmetic mean of the non-null entries; none models the
NaN returned for an all-null column. -/
def meanOf (cs : List Cell) : Option ℚ :=
  match numsOf cs with
  | [] => none
  | qs => some (qs.sum / (qs.length : ℚ))

/-- The value at fractional index h of an ascending list: the cell floor h is
chosen and the remainder interpolates linearly towards the next cell (beyond
the end the current cell is repeated, making the fractional part vanish). -/
def interpAt (vs : List ℚ) (v0 h : ℚ) : ℚ :=
  vs.getD (⌊h⌋).toNat v0 +
    (h - ((⌊h⌋).toNat : ℚ)) *
      (vs.getD ((⌊h⌋).toNat + 1) (vs.getD (⌊h⌋).toNat v0) - vs.getD (⌊h⌋).toNat v0)

/-- Linear interpolation at fractional position q * (n - 1) into an ascending
list, the default interpolation of Series.quantile (see interpAt); none models
the NaN of an empty column. -/
def quantileSorted (vs : List ℚ) (q : ℚ) : Option ℚ :=
  match vs with
  | [] => none
  | v0 :: _ => some (interpAt vs v0 (q * ((vs.length : ℚ) - 1)))

/-- Series.quantile(q): NaN-dropping, sorting, then linear interpolation. -/
def quantileOf (cs : List Cell) (q : ℚ) : Option ℚ :=
  quantileSorted (List.insertionSort (· ≤ ·) (numsOf cs)) q

/-- Series.median(): the 0.5 quantile under linear interpolation. -/
def medianOf (cs : List Cell) : Option ℚ :=
  quantileOf cs (1/2)

/-- Fill the nulls of a column with its mean; a NaN fill value is a no-op. -/
def fillMeanCells (cs : List Cell) : List Cell :=
  match meanOf cs with
  | none => cs
  | some m => cs.map (fun c => if c = none then some (.num m) else c)

/-- Fill the nulls of a column with its median; a NaN fill value is a no-op. -/
def fillMedianCells (cs : List Cell) : List Cell :=
  match medianOf cs with
  | none => cs
  | some m => cs.map (fun c => if c = none then some (.num m) else c)

/-- Fill the named columns left to right; a name absent from the DataFrame
raises KeyError when df[col] is evaluated inside the loop. -/
def fillNumAt (f : List Cell → List Cell) : List String → DF → Except Err DF
  | [], d => .ok d
  | c :: cs, d =>
    match d.colIdx c with
    | none => .error .keyError
    | some i => fillNumAt f cs (d.mapColAt i f)

/-- DataCleaner.fill_missing_values_numeric; the columns argument is the
optional explicit column list (None selects all numeric columns). -/
def fill_missing_values_numeric (d : DF) (method : String)
    (columns : Option (List String)) : Except Err DF :=
  let numeric_columns := match columns with
    | none => get_numerical_columns d
    | some cs => cs
  if method = "mean" then fillNumAt fillMeanCells numeric_columns d
  else if method = "median" then fillNumAt fillMedianCells numeric_columns d
  else .error .methodUnknown

/-- DataCleaner.remove_nan_categorical: for each categorical column keep the
rows whose entry differs from the literal string nan (df[df[col] != "nan"]);
an actual null compares unequal to a string in pandas, so null rows are kept. -/
def remove_nan_categorical (d : DF) : DF :=
  { d with
    rows := (d.catIdxs).foldl
      (fun rs i => rs.filter (fun r => decide (r.getD i none ≠ some (.str "nan"))))
      d.rows }

/-- True when the column holds a non-numeric, non-null entry, on which
Series.quantile raises a TypeError. -/
def hasNonNum (cs : List Cell) : Bool :=
  cs.any (fun c => match c with
    | some (.str _) => true
    | some .medianFn => true
    | _ => false)

/-- The Tukey fences of a column: Q1 - 1.5 IQR and Q3 + 1.5 IQR; none models
the NaN bounds of a column without numeric entries. -/
def iqrBounds (cs : List Cell) : Option (ℚ × ℚ) :=
  match quantileOf cs (1/4), quantileOf cs (3/4) with
  | some q1, some q3 => some (q1 - 1.5 * (q3 - q1), q3 + 1.5 * (q3 - q1))
  | _, _ => none

/-- np.where(col < lower_bound, lower_bound, col) on one cell; a NaN cell
compares false and is kept. -/
def clipLow (lo : ℚ) (c : Cell) : Cell :=
  match c with
  | some (.num q) => if q < lo then some (.num lo) else c
  | _ => c

/-- np.where(col > upper_bound, upper_bound, col) on one cell. -/
def clipHigh (hi : ℚ) (c : Cell) : Cell :=
  match c with
  | some (.num q) => if q > hi then some (.num hi) else c
  | _ => c

/-- DataCleaner.handle_outliers. The function first copies the DataFrame, so
this value function is the whole story (see handle_outliers_ref for aliasing).
The mode branch evaluates Series.mode()[0] before each np.where, re-computing
it on the already-updated column the second time. The median branch stores the
un-invoked df[col].median method object for entries below the lower bound; the
subsequent greater-than comparison of that object with the upper bound then
raises a TypeError. When the column has no numeric entry, both quantiles are
NaN, every comparison with the bounds is false, and the values are unchanged. -/
def handle_outliers (d : DF) (col : String) (method : String) : Except Err DF :=
  match d.colIdx col with
  | none => .error .keyError
  | some i =>
    let cells := d.getColAt i
    if hasNonNum cells then .error .typeError
    else
      match iqrBounds cells with
      | none =>
        if method = "mode" then
          match mode0 cells with
          | none => .error .indexError
          | some _ => .ok (d.mapColAt i id)
        else .ok (d.mapColAt i id)
      | some (lo, hi) =>
        if method = "mode" then
          match mode0 cells with
          | none => .error .indexError
          | some m1 =>
            let cells2 := cells.map (fun c =>
              match c with
              | some (.num q) => if q < lo then some m1 else c
              | _ => c)
            match mode0 cells2 with
            | none => .error .indexError
            | some m2 => .ok (d.mapColAt i (fun _ => cells2.map (fun c =>
                match c with
                | some (.num q) => if q > hi then some m2 else c
                | _ => c)))
        else if method = "median" then
          let cells2 := cells.map (fun c =>
            match c with
            | some (.num q) => if q < lo then some Val.medianFn else c
            | _ => c)
          if cells2.any (fun c => decide (c = some Val.medianFn)) then .error .typeError
          else .ok (d.mapColAt i (fun _ => cells2.map (fun c =>
            match c with
            | some (.num q) => if q > hi then some Val.medianFn else c
            | _ => c)))
        else
          .ok (d.mapColAt i (fun _ => (cells.map (clipLow lo)).map (clipHigh hi)))

/-- A heap of DataFrame objects: Python references are modelled as indices
into the store, allocation appends. -/
structure PyHeap where
  store : List DF
  deriving DecidableEq

/-- Dereference a DataFrame object. -/
def PyHeap.read (h : PyHeap) (a : ℕ) : Option DF :=
  h.store.get? a

/-- Allocate a fresh DataFrame object and return its reference. -/
def PyHeap.alloc (h : PyHeap) (d : DF) : PyHeap × ℕ :=
  (⟨h.store ++ [d]⟩, h.store.length)

/-- DataCleaner.handle_outliers at the reference level: df = df.copy() allocates
a fresh object, all updates go to the copy, and the reference to the copy is
returned; the argument object is never written. On an exception the heap holds
no new reachable object and the argument is likewise untouched. -/
def handle_outliers_ref (h : PyHeap) (a : ℕ) (col : String) (method : String) :
    PyHeap × Except Err ℕ :=
  match h.read a with
  | none => (h, .error .keyError)
  | some d =>
    match handle_outliers d col method with
    | .error e => (h, .error e)
    | .ok dNew =>
      let hr := h.alloc dNew
      (hr.1, .ok hr.2)

/-! ### Small list facts used by the frame lemmas -/

theorem getD_set_self {α : Type} (l : List α) (i : ℕ) (v dflt : α) (h : i < l.length) :
    (l.set i v).getD i dflt = v := by
  induction l generalizing i with
  | nil => simp at h
  | cons a as ih =>
    cases i with
    | zero => rfl
    | succ n =>
      simp only [List.set, List.getD, List.getElem?_cons_succ]
      have hn : n < as.length := by simpa using h
      simpa [List.getD] using ih n hn

theorem getD_set_ne {α : Type} (l : List α) (i j : ℕ) (v dflt : α) (h : i ≠ j) :
    (l.set i v).getD j dflt = l.getD j dflt := by
  induction l generalizing i j with
  | nil => rfl
  | cons a as ih =>
    cases i with
    | zero =>
      cases j with
      | zero => exact absurd rfl h
      | succ m => rfl
    | succ n =>
      cases j with
      | zero => rfl
      | succ m =>
        simp only [List.set, List.getD, List.getElem?_cons_succ]
        simpa [List.getD] using ih n m (fun hnm => h (by rw [hnm]))

theorem getD_of_length_le {α : Type} (l : List α) (i : ℕ) (dflt : α) (h : l.length ≤ i) :
    l.getD i dflt = dflt := by
  simp [List.getD, List.getElem?_eq_none h]

/-! ### drop_duplicate: first-occurrence deduplication -/

theorem dropDupAux_sublist (seen l : List (List Cell)) :
    (dropDupAux seen l).Sublist l := by
  induction l generalizing seen with
  | nil => simp [dropDupAux]
  | cons r rs ih =>
    simp only [dropDupAux]
    split
    · exact (ih seen).cons r
    · exact (ih (r :: seen)).cons₂ r

theorem dropDupAux_idem (l seen : List (List Cell)) :
    dropDupAux seen (dropDupAux seen l) = dropDupAux seen l := by
  induction l generalizing seen with
  | nil => simp [dropDupAux]
  | cons r rs ih =>
    by_cases hr : r ∈ seen
    · simp [dropDupAux, hr, ih]
    · simp [dropDupAux, hr, ih]

/-- C6: applying drop_duplicate twice gives the same result as applying it
once, and the surviving rows are a sublist of the input rows, i.e. first
occurrences are kept in their original order. -/
theorem drop_duplicate_idempotent (d : DF) :
    drop_duplicate (drop_duplicate d) = drop_duplicate d ∧
    (drop_duplicate d).rows.Sublist d.rows := by
  refine ⟨?_, dropDupAux_sublist [] d.rows⟩
  simp [drop_duplicate, dropDupAux_idem]

/-- C10: on a dataset whose single categorical column is entirely null,
fill_missing_values_categorical with the valid mode policy raises the error of
indexing position 0 of the empty mode result instead of returning a dataset. -/
theorem fill_categorical_mode_all_null_raises :
    fill_missing_values_categorical ⟨[("c", Dtype.object)], [[none]]⟩ "mode" =
      .error Err.indexError := by
  with_unfolding_all decide

/-- The five-row single-column dataset x = 0, 0, 0, 0, 100 used to exhibit the
median-policy defect: Q1 = Q3 = 0, so both Tukey fences are 0 and the entry 100
lies above the upper fence. -/
def dMedianBug : DF :=
  ⟨[("x", Dtype.numeric)],
   [[some (Val.num 0)], [some (Val.num 0)], [some (Val.num 0)],
    [some (Val.num 0)], [some (Val.num 100)]]⟩

/-- C1: with the replace-with-median policy the out-of-bound entry 100 is not
replaced by the column median (the number 0, as the second conjunct computes);
the code stores the un-invoked Series.median method object instead, because
line 190-191 of cleaner.py write df[col].median without parentheses. -/
theorem handle_outliers_median_stores_method_ref :
    handle_outliers dMedianBug "x" "median" =
      .ok ⟨[("x", Dtype.numeric)],
           [[some (Val.num 0)], [some (Val.num 0)], [some (Val.num 0)],
            [some (Val.num 0)], [some Val.medianFn]]⟩ ∧
    medianOf (dMedianBug.getColAt 0) = some 0 := by
  with_unfolding_all decide

/-- The dataset of the spec example: a single column x with rows 1, 2, 3, 100. -/
def dExample : DF :=
  ⟨[("x", Dtype.numeric)],
   [[some (Val.num 1)], [some (Val.num 2)], [some (Val.num 3)], [some (Val.num 100)]]⟩

/-- C4 counterexample: contrary to the claim, handle_outliers with the default
clip-to-bound policy does not return the input unchanged on rows 1, 2, 3, 100. -/
theorem handle_outliers_example_not_identity :
    handle_outliers dExample "x" "IQR" ≠ .ok dExample := by
  with_unfolding_all decide

/-- C4 amended: on rows 1, 2, 3, 100 the linear-interpolation quartiles are
Q1 = 1.75 and Q3 = 27.25, so IQR = 25.5, the fences are -36.5 and 65.5, and
the default clip-to-bound policy clips 100 to 65.5, leaving 1, 2, 3 unchanged. -/
theorem handle_outliers_example_clips :
    quantileOf (dExample.getColAt 0) (1/4) = some 1.75 ∧
    quantileOf (dExample.getColAt 0) (3/4) = some 27.25 ∧
    iqrBounds (dExample.getColAt 0) = some (-36.5, 65.5) ∧
    handle_outliers dExample "x" "IQR" =
      .ok ⟨[("x", Dtype.numeric)],
           [[some (Val.num 1)], [some (Val.num 2)], [some (Val.num 3)],
            [some (Val.num 65.5)]]⟩ := by
  with_unfolding_all decide

/-! ### remove_nan_categorical -/

theorem foldl_filter_all (p : ℕ → List Cell → Bool) (idxs : List ℕ)
    (rows : List (List Cell)) :
    idxs.foldl (fun rs i => rs.filter (fun r => p i r)) rows =
      rows.filter (fun r => idxs.all (fun i => p i r)) := by
  induction idxs generalizing rows with
  | nil => simp
  | cons i is ih =>
    simp only [List.foldl_cons, List.all_cons]
    rw [ih, List.filter_filter]
    exact List.filter_congr (fun r _ => by rw [Bool.and_comm])

/-- C3 counterexample: a row whose categorical column holds an actual null is
kept by remove_nan_categorical, contrary to the claim that no null survives;
pandas compares NaN != "nan" as true, so only the literal string is dropped. -/
theorem remove_nan_categorical_keeps_null_row :
    remove_nan_categorical ⟨[("c", Dtype.object)], [[none]]⟩ =
      ⟨[("c", Dtype.object)], [[none]]⟩ ∧
    (0 ∈ (⟨[("c", Dtype.object)], [[none]]⟩ : DF).catIdxs ∧
     (none : Cell) ∈ (⟨[("c", Dtype.object)], [[none]]⟩ : DF).getColAt 0) := by
  with_unfolding_all decide

/-- C3 amended: remove_nan_categorical keeps exactly the rows in which no
categorical column holds the literal placeholder string nan; rows whose
categorical entries are genuine nulls (or anything else) are kept, in order. -/
theorem remove_nan_categorical_filter (d : DF) :
    (remove_nan_categorical d).rows =
      d.rows.filter (fun r =>
        (d.catIdxs).all (fun i => decide (r.getD i none ≠ some (.str "nan")))) := by
  simp only [remove_nan_categorical]
  exact foldl_filter_all (fun i r => decide (r.getD i none ≠ some (.str "nan"))) _ _

/-! ### handle_outliers operates on a copy -/

/-- C9: when handle_outliers succeeds, the argument DataFrame object is left
holding exactly its original columns and values (df = df.copy() is executed
before any update), and the returned reference is a fresh object, distinct
from the argument, holding the transformed dataset. -/
theorem handle_outliers_ref_frame (h : PyHeap) (a : ℕ) (d dNew : DF)
    (col method : String)
    (ha : h.read a = some d)
    (hok : handle_outliers d col method = .ok dNew) :
    (handle_outliers_ref h a col method).1.read a = some d ∧
    (handle_outliers_ref h a col method).2 = .ok h.store.length ∧
    h.store.length ≠ a ∧
    (handle_outliers_ref h a col method).1.read h.store.length = some dNew := by
  have halt : a < h.store.length := by
    by_contra hcon
    have : h.store.get? a = none := List.get?_eq_none.mpr (Nat.le_of_not_lt hcon)
    rw [PyHeap.read, this] at ha
    exact Option.noConfusion ha
  unfold handle_outliers_ref
  simp only [ha, hok, PyHeap.alloc]
  refine ⟨?_, trivial, fun hcon => absurd (hcon ▸ halt) (lt_irrefl a), ?_⟩
  · show (h.store ++ [dNew]).get? a = some d
    rw [List.get?_eq_getElem?, List.getElem?_append_left halt]
    rw [PyHeap.read, List.get?_eq_getElem?] at ha
    exact ha
  · show (h.store ++ [dNew]).get? h.store.length = some dNew
    rw [List.get?_eq_getElem?]
    exact List.getElem?_concat_length h.store dNew

/-- A one-row, one-column dataset used as concrete witness input. -/
def dOneCell : DF := ⟨[("x", Dtype.numeric)], [[some (Val.num 1)]]⟩

/-- Witness for the frame theorem at a concrete heap: a singleton store holding
dOneCell at address 0, clipped with the default policy. -/
theorem handle_outliers_ref_frame_witness :
    (handle_outliers_ref ⟨[dOneCell]⟩ 0 "x" "IQR").1.read 0 = some dOneCell ∧
    (handle_outliers_ref ⟨[dOneCell]⟩ 0 "x" "IQR").2 = .ok 1 ∧
    (1 : ℕ) ≠ 0 ∧
    (handle_outliers_ref ⟨[dOneCell]⟩ 0 "x" "IQR").1.read 1 = some dOneCell :=
  handle_outliers_ref_frame ⟨[dOneCell]⟩ 0 dOneCell dOneCell "x" "IQR"
    (by with_unfolding_all decide) (by with_unfolding_all decide)

/-! ### Unknown-policy errors -/

theorem fillModeCols_ne_methodUnknown (is : List ℕ) (d : DF) :
    fillModeCols is d ≠ .error Err.methodUnknown := by
  induction is generalizing d with
  | nil => simp [fillModeCols]
  | cons i is ih =>
    simp only [fillModeCols]
    cases mode0 (d.getColAt i) with
    | none => simp
    | some v => exact ih _

theorem fillNumAt_ne_methodUnknown (f : List Cell → List Cell) (names : List String)
    (d : DF) : fillNumAt f names d ≠ .error Err.methodUnknown := by
  induction names generalizing d with
  | nil => simp [fillNumAt]
  | cons c cs ih =>
    simp only [fillNumAt]
    cases d.colIdx c with
    | none => simp
    | some i => exact ih _

/-- C8: fill_missing_values_categorical raises the unknown-policy ValueError
precisely when the method is none of ffill, bfill, mode, and
fill_missing_values_numeric (with its default column selection) raises it
precisely when the method is neither mean nor median; for any other failure of
a valid policy a different exception is raised. -/
theorem unknown_policy_errors (d : DF) (m : String) :
    (fill_missing_values_categorical d m = .error Err.methodUnknown ↔
      m ≠ "ffill" ∧ m ≠ "bfill" ∧ m ≠ "mode") ∧
    (fill_missing_values_numeric d m none = .error Err.methodUnknown ↔
      m ≠ "mean" ∧ m ≠ "median") := by
  constructor
  · unfold fill_missing_values_categorical
    by_cases h1 : m = "ffill"
    · simp [h1]
    · by_cases h2 : m = "bfill"
      · simp [h2]
      · by_cases h3 : m = "mode"
        · simp [h1, h2, h3, fillModeCols_ne_methodUnknown]
        · simp [h1, h2, h3]
  · unfold fill_missing_values_numeric
    by_cases h1 : m = "mean"
    · simp [h1, fillNumAt_ne_methodUnknown]
    · by_cases h2 : m = "median"
      · simp [h1, h2, fillNumAt_ne_methodUnknown]
      · simp [h1, h2]

/-! ### percent_missing_column -/

theorem roundHalfEven_nonneg (x : ℚ) (hx : 0 ≤ x) : 0 ≤ roundHalfEven x := by
  have hfl : (0 : ℤ) ≤ ⌊x⌋ := Int.floor_nonneg.mpr hx
  unfold roundHalfEven
  split_ifs <;> omega

theorem roundHalfEven_le (x : ℚ) (n : ℤ) (hx : x ≤ n) : roundHalfEven x ≤ n := by
  have hfl : ⌊x⌋ ≤ n := by
    have := Int.floor_le_floor hx
    rwa [Int.floor_intCast] at this
  unfold roundHalfEven
  split_ifs with h1 h2 h3
  · exact hfl
  · -- 1/2 < fract x, so x is strictly above its floor plus a half
    have hfr : (1 : ℚ)/2 < x - ⌊x⌋ := by rw [← Int.self_sub_floor] at h2; exact h2
    have : (⌊x⌋ : ℚ) < (n : ℚ) := by
      have hxn : x ≤ (n : ℚ) := hx
      linarith
    have : ⌊x⌋ < n := by exact_mod_cast this
    omega
  · exact hfl
  · have hfr : (1 : ℚ)/2 ≤ x - ⌊x⌋ := by
      rw [← Int.self_sub_floor] at h1
      linarith [not_lt.mp h1]
    have : (⌊x⌋ : ℚ) < (n : ℚ) := by
      have hxn : x ≤ (n : ℚ) := hx
      linarith
    have : ⌊x⌋ < n := by exact_mod_cast this
    omega

/-- C7 counterexample: on a dataset with a column x and zero rows, the column
length is 0 and numpy evaluates 0 / 0 to NaN, so percent_missing_column does
not return a number at all, let alone one in the interval 0 to 100. -/
theorem percent_missing_column_zero_rows_nan :
    ¬ ∃ q : ℚ, percent_missing_column ⟨[("x", Dtype.numeric)], []⟩ "x" = .ok (some q) := by
  have h : percent_missing_column ⟨[("x", Dtype.numeric)], []⟩ "x" = .ok none := by
    with_unfolding_all decide
  rintro ⟨q, hq⟩
  rw [h] at hq
  exact Option.noConfusion (Except.ok.inj hq)

/-- C7 amended: for every dataset with at least one row and every column
present in it, percent_missing_column returns a number between 0 and 100 that
is an integer multiple of one hundredth (rounded to two decimals). -/
theorem percent_missing_column_in_range (d : DF) (col : String) (i : ℕ)
    (hcol : d.colIdx col = some i) (hrows : d.rows ≠ []) :
    ∃ q : ℚ, percent_missing_column d col = .ok (some q) ∧
      0 ≤ q ∧ q ≤ 100 ∧ ∃ k : ℤ, q = (k : ℚ) / 100 := by
  unfold percent_missing_column
  rw [hcol]
  have hlen : (d.getColAt i).length = d.rows.length := by simp [DF.getColAt]
  have hne : (d.getColAt i).length ≠ 0 := by
    rw [hlen]
    simpa [List.length_eq_zero] using hrows
  simp only [hne, if_false]
  set m : ℕ := (d.getColAt i).countP (fun c => decide (c = none)) with hm
  set n : ℕ := (d.getColAt i).length with hn
  have hnpos : (0 : ℚ) < (n : ℚ) := by
    have : 0 < n := Nat.pos_of_ne_zero hne
    exact_mod_cast this
  have hmn : m ≤ n := List.countP_le_length _
  have hratio0 : 0 ≤ ((m : ℚ) / (n : ℚ)) * 100 := by positivity
  have hratio100 : ((m : ℚ) / (n : ℚ)) * 100 ≤ 100 := by
    have hdiv : (m : ℚ) / (n : ℚ) ≤ 1 := by
      rw [div_le_one hnpos]
      exact_mod_cast hmn
    nlinarith
  refine ⟨pyRound2 (((m : ℚ) / (n : ℚ)) * 100), rfl, ?_, ?_, roundHalfEven _ , rfl⟩
  · unfold pyRound2
    have h0 : (0 : ℤ) ≤ roundHalfEven ((((m : ℚ) / n) * 100) * 100) :=
      roundHalfEven_nonneg _ (by positivity)
    have : (0 : ℚ) ≤ (roundHalfEven ((((m : ℚ) / n) * 100) * 100) : ℚ) := by exact_mod_cast h0
    positivity
  · unfold pyRound2
    have hle : roundHalfEven ((((m : ℚ) / n) * 100) * 100) ≤ (10000 : ℤ) := by
      apply roundHalfEven_le
      push_cast
      nlinarith
    have : ((roundHalfEven ((((m : ℚ) / n) * 100) * 100)) : ℚ) ≤ 10000 := by exact_mod_cast hle
    linarith

/-- Witness for percent_missing_column_in_range on a two-row column with one
null, where the exact answer is 50. -/
theorem percent_missing_column_in_range_witness :
    ∃ q : ℚ,
      percent_missing_column ⟨[("x", Dtype.numeric)], [[some (Val.num 1)], [none]]⟩ "x" =
        .ok (some q) ∧ 0 ≤ q ∧ q ≤ 100 ∧ ∃ k : ℤ, q = (k : ℚ) / 100 :=
  percent_missing_column_in_range ⟨[("x", Dtype.numeric)], [[some (Val.num 1)], [none]]⟩
    "x" 0 (by with_unfolding_all decide) (by with_unfolding_all decide)

/-! ### Frame lemmas for mapColAt -/

theorem zip_set_getD_self (i : ℕ) :
    ∀ (L : List (List Cell)) (N : List Cell),
    (∀ r ∈ L, i < r.length) → N.length = L.length →
    ((L.zip N).map (fun rv => rv.1.set i rv.2)).map (fun r => r.getD i none) = N := by
  intro L
  induction L with
  | nil =>
    intro N _ hN
    rw [List.length_nil, List.length_eq_zero] at hN
    simp [hN]
  | cons r L ih =>
    intro N hlen hN
    cases N with
    | nil => simp at hN
    | cons v N2 =>
      simp only [List.zip_cons_cons, List.map_cons, List.cons.injEq]
      refine ⟨getD_set_self r i v none (hlen r (List.mem_cons_self r L)), ?_⟩
      exact ih N2 (fun s hs => hlen s (List.mem_cons_of_mem r hs)) (by simpa using hN)

theorem zip_set_getD_ne (i j : ℕ) (hij : j ≠ i) :
    ∀ (L : List (List Cell)) (N : List Cell), N.length = L.length →
    ((L.zip N).map (fun rv => rv.1.set i rv.2)).map (fun r => r.getD j none) =
      L.map (fun r => r.getD j none) := by
  intro L
  induction L with
  | nil => intro N _; simp
  | cons r L ih =>
    intro N hN
    cases N with
    | nil => simp at hN
    | cons v N2 =>
      simp only [List.zip_cons_cons, List.map_cons, List.cons.injEq]
      refine ⟨getD_set_ne r i j v none (fun h => hij h.symm), ?_⟩
      exact ih N2 (by simpa using hN)

theorem zip_set_rowlen (i : ℕ) (n : ℕ) :
    ∀ (L : List (List Cell)) (N : List Cell), (∀ r ∈ L, r.length = n) →
    ∀ r2 ∈ (L.zip N).map (fun rv => rv.1.set i rv.2), r2.length = n := by
  intro L
  induction L with
  | nil => intro N _ r2 h; simp at h
  | cons r L ih =>
    intro N hlen r2 h
    cases N with
    | nil => simp at h
    | cons v N2 =>
      simp only [List.zip_cons_cons, List.map_cons, List.mem_cons] at h
      rcases h with h | h
      · rw [h, List.length_set]
        exact hlen r (List.mem_cons_self r L)
      · exact ih N2 (fun s hs => hlen s (List.mem_cons_of_mem r hs)) r2 h

theorem mapColAt_cols (d : DF) (i : ℕ) (f : List Cell → List Cell) :
    (d.mapColAt i f).cols = d.cols := rfl

theorem length_getColAt (d : DF) (i : ℕ) :
    (d.getColAt i).length = d.rows.length := by
  simp [DF.getColAt]

theorem getColAt_mapColAt_self (d : DF) (i : ℕ) (f : List Cell → List Cell)
    (hrow : ∀ r ∈ d.rows, i < r.length)
    (hf : (f (d.getColAt i)).length = (d.getColAt i).length) :
    (d.mapColAt i f).getColAt i = f (d.getColAt i) := by
  show ((d.rows.zip (f (d.getColAt i))).map (fun rv => rv.1.set i rv.2)).map
      (fun r => r.getD i none) = f (d.getColAt i)
  exact zip_set_getD_self i d.rows _ hrow (by rw [hf, length_getColAt])

theorem getColAt_mapColAt_ne (d : DF) (i j : ℕ) (f : List Cell → List Cell)
    (hij : j ≠ i)
    (hf : (f (d.getColAt i)).length = (d.getColAt i).length) :
    (d.mapColAt i f).getColAt j = d.getColAt j := by
  show ((d.rows.zip (f (d.getColAt i))).map (fun rv => rv.1.set i rv.2)).map
      (fun r => r.getD j none) = d.getColAt j
  exact zip_set_getD_ne i j hij d.rows _ (by rw [hf, length_getColAt])

theorem mapColAt_rowlen (d : DF) (i : ℕ) (f : List Cell → List Cell)
    (hwf : ∀ r ∈ d.rows, r.length = d.cols.length) :
    ∀ r ∈ (d.mapColAt i f).rows, r.length = (d.mapColAt i f).cols.length := by
  intro r hr
  exact zip_set_rowlen i d.cols.length d.rows _ hwf r hr

/-! ### Column-name resolution -/

theorem colIdxAux_lt_length (c : String) :
    ∀ (ps : List (String × Dtype)) (i : ℕ), colIdxAux c ps = some i → i < ps.length := by
  intro ps
  induction ps with
  | nil => intro i h; exact Option.noConfusion h
  | cons p ps ih =>
    intro i h
    simp only [colIdxAux] at h
    split at h
    · cases h; simp
    · rcases Option.map_eq_some'.mp h with ⟨j, hj, rfl⟩
      have := ih j hj
      simp [Nat.succ_lt_succ this]

theorem colIdxAux_name (c : String) (dflt : String × Dtype) :
    ∀ (ps : List (String × Dtype)) (i : ℕ), colIdxAux c ps = some i →
      (ps.getD i dflt).1 = c := by
  intro ps
  induction ps with
  | nil => intro i h; exact Option.noConfusion h
  | cons p ps ih =>
    intro i h
    simp only [colIdxAux] at h
    split at h
    · cases h
      simpa [List.getD] using by assumption
    · rcases Option.map_eq_some'.mp h with ⟨j, hj, rfl⟩
      simpa [List.getD] using ih j hj

theorem colIdxAux_getD_self (dflt : String × Dtype) :
    ∀ (ps : List (String × Dtype)), (ps.map Prod.fst).Nodup →
    ∀ i, i < ps.length → colIdxAux (ps.getD i dflt).1 ps = some i := by
  intro ps
  induction ps with
  | nil => intro _ i h; simp at h
  | cons p ps ih =>
    intro hnd i hi
    rw [List.map_cons, List.nodup_cons] at hnd
    obtain ⟨hp, hps⟩ := hnd
    cases i with
    | zero => simp [colIdxAux, List.getD]
    | succ n =>
      have hn : n < ps.length := by simpa using hi
      have hmem : (ps.getD n dflt).1 ∈ ps.map Prod.fst := by
        rw [List.getD_eq_getElem ps dflt hn]
        exact List.mem_map_of_mem Prod.fst (ps.getElem_mem hn)
      have hne : ¬ p.1 = (ps.getD n dflt).1 := by
        intro hcon
        exact hp (hcon ▸ hmem)
      simp only [colIdxAux, List.getD_cons_succ, if_neg hne]
      rw [ih hps n hn]
      rfl

theorem colIdx_functional (d : DF) (c : String) (i j : ℕ)
    (hi : d.colIdx c = some i) (hj : d.colIdx c = some j) : i = j := by
  rw [hi] at hj
  exact Option.some.inj hj

theorem colIdx_inj (d : DF) (c c2 : String) (i : ℕ)
    (hi : d.colIdx c = some i) (hj : d.colIdx c2 = some i) : c = c2 := by
  have h1 := colIdxAux_name c ("", Dtype.object) d.cols i hi
  have h2 := colIdxAux_name c2 ("", Dtype.object) d.cols i hj
  rw [← h1, ← h2]

theorem colIdxAux_some_of_mem (c : String) :
    ∀ (ps : List (String × Dtype)), c ∈ ps.map Prod.fst →
      ∃ i, colIdxAux c ps = some i := by
  intro ps
  induction ps with
  | nil => intro h; simp at h
  | cons p ps ih =>
    intro h
    by_cases hp : p.1 = c
    · exact ⟨0, by simp [colIdxAux, hp]⟩
    · have : c ∈ ps.map Prod.fst := by
        rw [List.map_cons, List.mem_cons] at h
        rcases h with h1 | h1
        · exact absurd h1.symm hp
        · exact h1
      rcases ih this with ⟨j, hj⟩
      exact ⟨j + 1, by simp [colIdxAux, hp, hj]⟩

/-- Specification of the left-to-right per-column fill loop: with distinct,
resolvable column names it succeeds, keeps the schema and row shape, applies f
exactly once to each named column, and leaves every other column unchanged. -/
theorem fillNumAt_spec (f : List Cell → List Cell)
    (hflen : ∀ cs, (f cs).length = cs.length) :
    ∀ (names : List String) (d : DF),
    (∀ r ∈ d.rows, r.length = d.cols.length) →
    names.Nodup →
    (∀ c ∈ names, ∃ i, d.colIdx c = some i) →
    ∃ d2, fillNumAt f names d = .ok d2 ∧
      d2.cols = d.cols ∧
      (∀ r ∈ d2.rows, r.length = d2.cols.length) ∧
      (∀ c i, c ∈ names → d.colIdx c = some i → d2.getColAt i = f (d.getColAt i)) ∧
      (∀ j, (∀ c ∈ names, d.colIdx c ≠ some j) → d2.getColAt j = d.getColAt j) := by
  intro names
  induction names with
  | nil =>
    intro d hwf _ _
    exact ⟨d, rfl, rfl, hwf, fun c i hc => absurd hc (List.not_mem_nil c),
           fun j _ => rfl⟩
  | cons c cs ih =>
    intro d hwf hnd hres
    obtain ⟨i, hci⟩ := hres c (List.mem_cons_self c cs)
    rw [List.nodup_cons] at hnd
    obtain ⟨hcn, hnd2⟩ := hnd
    have hi_lt : i < d.cols.length := colIdxAux_lt_length c d.cols i hci
    have hrow : ∀ r ∈ d.rows, i < r.length := fun r hr => (hwf r hr) ▸ hi_lt
    have hwf1 : ∀ r ∈ (d.mapColAt i f).rows, r.length = (d.mapColAt i f).cols.length :=
      mapColAt_rowlen d i f hwf
    have hres1 : ∀ c2 ∈ cs, ∃ j, (d.mapColAt i f).colIdx c2 = some j :=
      fun c2 hc2 => hres c2 (List.mem_cons_of_mem c hc2)
    obtain ⟨d2, heq, hcols2, hwf2, hfill, hframe⟩ := ih (d.mapColAt i f) hwf1 hnd2 hres1
    refine ⟨d2, ?_, hcols2, hwf2, ?_, ?_⟩
    · simp only [fillNumAt, hci]
      exact heq
    · intro c2 j hc2 hcj
      rcases List.mem_cons.mp hc2 with rfl | hc2
      · have hij : i = j := colIdx_functional d c2 i j hci hcj
        subst hij
        have hnone : ∀ c3 ∈ cs, (d.mapColAt i f).colIdx c3 ≠ some i := by
          intro c3 hc3 hcon
          have hd : d.colIdx c3 = some i := hcon
          exact hcn ((colIdx_inj d c2 c3 i hcj hd) ▸ hc3)
        rw [hframe i hnone]
        exact getColAt_mapColAt_self d i f hrow (hflen _)
      · have hij : j ≠ i := by
          intro hcon
          subst hcon
          exact hcn ((colIdx_inj d c c2 j hci hcj) ▸ hc2)
        have : d2.getColAt j = f ((d.mapColAt i f).getColAt j) :=
          hfill c2 j hc2 hcj
        rw [this, getColAt_mapColAt_ne d i j f hij (hflen _)]
    · intro j hj
      have hij : j ≠ i := by
        intro hcon
        exact hj c (List.mem_cons_self c cs) (hcon ▸ hci)
      have : d2.getColAt j = (d.mapColAt i f).getColAt j :=
        hframe j (fun c2 hc2 => hj c2 (List.mem_cons_of_mem c hc2))
      rw [this, getColAt_mapColAt_ne d i j f hij (hflen _)]

/-- True exactly on a cell holding a number. -/
def isNumCell : Cell → Bool
  | some (.num _) => true
  | _ => false

theorem numsOf_ne_nil (cs : List Cell) (h : cs.any isNumCell = true) :
    numsOf cs ≠ [] := by
  rcases List.any_eq_true.mp h with ⟨c, hc, hnum⟩
  match c, hnum with
  | some (.num q), _ =>
    intro hcon
    have : q ∈ numsOf cs := by
      apply List.mem_filterMap.mpr
      exact ⟨some (.num q), hc, rfl⟩
    rw [hcon] at this
    exact List.not_mem_nil q this

theorem fillMeanCells_length (cs : List Cell) :
    (fillMeanCells cs).length = cs.length := by
  unfold fillMeanCells
  cases meanOf cs with
  | none => rfl
  | some m => exact List.length_map cs _

theorem fillMeanCells_no_none (cs : List Cell) (h : cs.any isNumCell = true) :
    (none : Cell) ∉ fillMeanCells cs := by
  unfold fillMeanCells meanOf
  cases hn : numsOf cs with
  | nil => exact absurd hn (numsOf_ne_nil cs h)
  | cons q qs =>
    intro hmem
    rcases List.mem_map.mp hmem with ⟨c, _, hc⟩
    by_cases hcn : c = none
    · rw [if_pos hcn] at hc
      exact Option.noConfusion hc
    · rw [if_neg hcn] at hc
      exact hcn hc

theorem numericIdxs_congr (d1 d2 : DF) (h : d1.cols = d2.cols) :
    d1.numericIdxs = d2.numericIdxs := by
  unfold DF.numericIdxs
  rw [h]

theorem mem_numericIdxs (d : DF) (i : ℕ) (h : i ∈ d.numericIdxs) :
    i < d.cols.length ∧ (d.cols.getD i ("", Dtype.object)).2 = Dtype.numeric := by
  unfold DF.numericIdxs at h
  rw [List.mem_filter, List.mem_range] at h
  exact ⟨h.1, of_decide_eq_true h.2⟩

theorem numeric_name_mem (d : DF) (i : ℕ) (hi : i < d.cols.length)
    (hty : (d.cols.getD i ("", Dtype.object)).2 = Dtype.numeric) :
    (d.cols.getD i ("", Dtype.object)).1 ∈ get_numerical_columns d := by
  unfold get_numerical_columns
  apply List.mem_map_of_mem Prod.fst
  rw [List.mem_filter]
  rw [List.getD_eq_getElem d.cols ("", Dtype.object) hi] at hty ⊢
  exact ⟨d.cols.getElem_mem hi, decide_eq_true hty⟩

theorem numerical_columns_nodup (d : DF) (h : (d.cols.map Prod.fst).Nodup) :
    (get_numerical_columns d).Nodup := by
  unfold get_numerical_columns
  exact ((d.cols.filter_sublist).map Prod.fst).nodup h

theorem numerical_columns_resolve (d : DF) (c : String)
    (h : c ∈ get_numerical_columns d) : ∃ i, d.colIdx c = some i := by
  apply colIdxAux_some_of_mem
  unfold get_numerical_columns at h
  rcases List.mem_map.mp h with ⟨p, hp, rfl⟩
  exact List.mem_map_of_mem Prod.fst (List.mem_of_mem_filter hp)

/-- C2 amended: on every well-formed dataset whose numeric columns each hold
at least one (non-null) number, mean-filling succeeds and the result has no
null left in any numeric column. The restriction is necessary: on an all-null
numeric column the mean itself is NaN and fillna leaves the nulls in place. -/
theorem fill_mean_no_nulls (d : DF) (hwf : d.WF)
    (hnum : ∀ i ∈ d.numericIdxs, (d.getColAt i).any isNumCell = true) :
    ∃ d2, fill_missing_values_numeric d "mean" none = .ok d2 ∧
      ∀ i ∈ d2.numericIdxs, (none : Cell) ∉ d2.getColAt i := by
  obtain ⟨d2, heq, hcols2, _, hfill, _⟩ :=
    fillNumAt_spec fillMeanCells fillMeanCells_length (get_numerical_columns d) d
      hwf.1 (numerical_columns_nodup d hwf.2) (numerical_columns_resolve d)
  refine ⟨d2, ?_, ?_⟩
  · unfold fill_missing_values_numeric
    simpa using heq
  · intro i hi
    rw [numericIdxs_congr d2 d hcols2] at hi
    obtain ⟨hilt, hity⟩ := mem_numericIdxs d i hi
    have hname : d.colIdx (d.cols.getD i ("", Dtype.object)).1 = some i :=
      colIdxAux_getD_self ("", Dtype.object) d.cols hwf.2 i hilt
    have hmem := numeric_name_mem d i hilt hity
    rw [hfill _ i hmem hname]
    exact fillMeanCells_no_none _ (hnum i hi)

/-- C2 counterexample: a dataset whose numeric column x is entirely null is
returned unchanged by mean-filling (the mean of an empty set of values is NaN
and filling with NaN is a no-op), so a null remains in a numeric column. -/
theorem fill_mean_all_null_keeps_null :
    fill_missing_values_numeric ⟨[("x", Dtype.numeric)], [[none]]⟩ "mean" none =
      .ok ⟨[("x", Dtype.numeric)], [[none]]⟩ ∧
    0 ∈ (⟨[("x", Dtype.numeric)], [[none]]⟩ : DF).numericIdxs ∧
    (none : Cell) ∈ (⟨[("x", Dtype.numeric)], [[none]]⟩ : DF).getColAt 0 := by
  with_unfolding_all decide

/-- Witness for fill_mean_no_nulls on a two-row numeric column holding 1 and
a null: the null is filled with the mean 1 and no null remains. -/
theorem fill_mean_no_nulls_witness :
    ∃ d2, fill_missing_values_numeric
        ⟨[("x", Dtype.numeric)], [[some (Val.num 1)], [none]]⟩ "mean" none = .ok d2 ∧
      ∀ i ∈ d2.numericIdxs, (none : Cell) ∉ d2.getColAt i :=
  fill_mean_no_nulls ⟨[("x", Dtype.numeric)], [[some (Val.num 1)], [none]]⟩
    ⟨by with_unfolding_all decide, by with_unfolding_all decide⟩
    (by with_unfolding_all decide)

/-! ### Clip-to-bound stays within the Tukey fences -/

theorem sorted_getD_mono (vs : List ℚ) (hs : List.Sorted (· ≤ ·) vs) (d1 d2 : ℚ)
    (i j : ℕ) (hij : i ≤ j) (hj : j < vs.length) :
    vs.getD i d1 ≤ vs.getD j d2 := by
  have hi : i < vs.length := lt_of_le_of_lt hij hj
  rw [List.getD_eq_getElem vs d1 hi, List.getD_eq_getElem vs d2 hj]
  have hrel := @List.Sorted.rel_get_of_le ℚ (· ≤ ·) _ vs hs ⟨i, hi⟩ ⟨j, hj⟩
    (Fin.mk_le_mk.mpr hij)
  simpa using hrel

theorem interp_diff_nonneg (vs : List ℚ) (hs : List.Sorted (· ≤ ·) vs) (v0 : ℚ)
    (i : ℕ) (_hi : i < vs.length) :
    vs.getD i v0 ≤ vs.getD (i + 1) (vs.getD i v0) := by
  by_cases h1 : i + 1 < vs.length
  · exact sorted_getD_mono vs hs v0 (vs.getD i v0) i (i + 1) (Nat.le_succ i) h1
  · rw [getD_of_length_le vs (i + 1) (vs.getD i v0) (Nat.le_of_not_lt h1)]

theorem interpAt_mono (vs : List ℚ) (v0 : ℚ) (hs : List.Sorted (· ≤ ·) vs)
    (hA hB : ℚ) (h0 : 0 ≤ hA) (hAB : hA ≤ hB) (hn : hB ≤ (vs.length : ℚ) - 1) :
    interpAt vs v0 hA ≤ interpAt vs v0 hB := by
  have hB0 : 0 ≤ hB := le_trans h0 hAB
  have hflA : (0 : ℤ) ≤ ⌊hA⌋ := Int.floor_nonneg.mpr h0
  have hflB : (0 : ℤ) ≤ ⌊hB⌋ := Int.floor_nonneg.mpr hB0
  set iA : ℕ := (⌊hA⌋).toNat with hiA
  set iB : ℕ := (⌊hB⌋).toNat with hiB
  have hiAQ : (iA : ℚ) = (⌊hA⌋ : ℚ) := by
    rw [hiA]
    exact_mod_cast congrArg (fun z : ℤ => (z : ℚ)) (Int.toNat_of_nonneg hflA)
  have hiBQ : (iB : ℚ) = (⌊hB⌋ : ℚ) := by
    rw [hiB]
    exact_mod_cast congrArg (fun z : ℤ => (z : ℚ)) (Int.toNat_of_nonneg hflB)
  have hAB' : iA ≤ iB := by
    rw [hiA, hiB]
    exact Int.toNat_le_toNat (Int.floor_le_floor hAB)
  have hflBn : ⌊hB⌋ ≤ (vs.length : ℤ) - 1 := by
    have h1 := Int.floor_le_floor hn
    rwa [show ((vs.length : ℚ) - 1) = (((vs.length : ℤ) - 1 : ℤ) : ℚ) by push_cast; ring,
         Int.floor_intCast] at h1
  have hlen1 : 1 ≤ vs.length := by
    by_contra hcon
    have : vs.length = 0 := by omega
    rw [this] at hflBn
    omega
  have hiBlt : iB < vs.length := by
    have : iB ≤ vs.length - 1 := by
      rw [hiB]
      exact Int.toNat_le.mpr (by omega)
    omega
  have hiAlt : iA < vs.length := lt_of_le_of_lt (by omega : iA ≤ iB) hiBlt |>.trans_le
    (le_refl _)
  have hfrA0 : 0 ≤ hA - (iA : ℚ) := by
    rw [hiAQ]
    have := Int.floor_le hA
    linarith
  have hfrA1 : hA - (iA : ℚ) ≤ 1 := by
    rw [hiAQ]
    have := Int.lt_floor_add_one hA
    linarith
  have hfrB0 : 0 ≤ hB - (iB : ℚ) := by
    rw [hiBQ]
    have := Int.floor_le hB
    linarith
  have hdA : vs.getD iA v0 ≤ vs.getD (iA + 1) (vs.getD iA v0) :=
    interp_diff_nonneg vs hs v0 iA hiAlt
  have hdB : vs.getD iB v0 ≤ vs.getD (iB + 1) (vs.getD iB v0) :=
    interp_diff_nonneg vs hs v0 iB hiBlt
  unfold interpAt
  rw [← hiA, ← hiB]
  rcases lt_or_eq_of_le hAB' with hlt | heq
  · -- distinct cells: x is at most the next value after cell iA, which is at
    -- most the value at cell iB, which is at most y
    have hx_le : vs.getD iA v0 + (hA - (iA : ℚ)) *
        (vs.getD (iA + 1) (vs.getD iA v0) - vs.getD iA v0) ≤
        vs.getD (iA + 1) (vs.getD iA v0) := by
      have hm := mul_le_mul_of_nonneg_right hfrA1 (by linarith : (0:ℚ) ≤
        vs.getD (iA + 1) (vs.getD iA v0) - vs.getD iA v0)
      linarith
    have hmid : vs.getD (iA + 1) (vs.getD iA v0) ≤ vs.getD iB v0 :=
      sorted_getD_mono vs hs (vs.getD iA v0) v0 (iA + 1) iB hlt hiBlt
    have hy_ge : vs.getD iB v0 ≤ vs.getD iB v0 + (hB - (iB : ℚ)) *
        (vs.getD (iB + 1) (vs.getD iB v0) - vs.getD iB v0) := by
      have hm := mul_nonneg hfrB0 (by linarith : (0:ℚ) ≤
        vs.getD (iB + 1) (vs.getD iB v0) - vs.getD iB v0)
      linarith
    linarith
  · -- same cell: the fractional parts compare and the cell width is nonneg
    rw [heq]
    have hfr : hA - (iB : ℚ) ≤ hB - (iB : ℚ) := by linarith
    have hm := mul_le_mul_of_nonneg_right hfr (by linarith : (0:ℚ) ≤
      vs.getD (iB + 1) (vs.getD iB v0) - vs.getD iB v0)
    linarith

theorem quantileSorted_mono (vs : List ℚ) (hs : List.Sorted (· ≤ ·) vs)
    (qa qb x y : ℚ) (ha : 0 ≤ qa) (hab : qa ≤ qb) (hb : qb ≤ 1)
    (hx : quantileSorted vs qa = some x) (hy : quantileSorted vs qb = some y) :
    x ≤ y := by
  cases vs with
  | nil => exact Option.noConfusion hx
  | cons v0 vt =>
    simp only [quantileSorted] at hx hy
    obtain rfl : x = interpAt (v0 :: vt) v0 (qa * (((v0 :: vt).length : ℚ) - 1)) :=
      (Option.some.inj hx).symm
    obtain rfl : y = interpAt (v0 :: vt) v0 (qb * (((v0 :: vt).length : ℚ) - 1)) :=
      (Option.some.inj hy).symm
    have hnQ : (0 : ℚ) ≤ ((v0 :: vt).length : ℚ) - 1 := by
      have : (1 : ℚ) ≤ ((v0 :: vt).length : ℚ) := by
        have : 1 ≤ (v0 :: vt).length := by simp
        exact_mod_cast this
      linarith
    apply interpAt_mono (v0 :: vt) v0 hs
    · exact mul_nonneg ha hnQ
    · exact mul_le_mul_of_nonneg_right hab hnQ
    · calc qb * (((v0 :: vt).length : ℚ) - 1) ≤ 1 * (((v0 :: vt).length : ℚ) - 1) :=
        mul_le_mul_of_nonneg_right hb hnQ
      _ = ((v0 :: vt).length : ℚ) - 1 := one_mul _

theorem iqrBounds_lo_le_hi (cs : List Cell) (lo hi : ℚ)
    (h : iqrBounds cs = some (lo, hi)) : lo ≤ hi := by
  unfold iqrBounds at h
  cases h1 : quantileOf cs (1/4) with
  | none => rw [h1] at h; exact Option.noConfusion h
  | some q1 =>
    cases h3 : quantileOf cs (3/4) with
    | none => rw [h1, h3] at h; exact Option.noConfusion h
    | some q3 =>
      rw [h1, h3] at h
      unfold quantileOf at h1 h3
      have hq : q1 ≤ q3 :=
        quantileSorted_mono (List.insertionSort (· ≤ ·) (numsOf cs))
          (List.sorted_insertionSort (· ≤ ·) (numsOf cs)) (1/4) (3/4) q1 q3
          (by norm_num) (by norm_num) (by norm_num) h1 h3
      have h2 := Option.some.inj h
      rw [Prod.mk.injEq] at h2
      rw [← h2.1, ← h2.2]
      linarith

theorem mem_getColAt_mapColAt (d : DF) (i : ℕ) (f : List Cell → List Cell) (c : Cell)
    (hc : c ∈ (d.mapColAt i f).getColAt i) :
    c = none ∨ c ∈ f (d.getColAt i) := by
  unfold DF.mapColAt DF.getColAt at hc
  rw [List.mem_map] at hc
  obtain ⟨r2, hr2, hget⟩ := hc
  rw [List.mem_map] at hr2
  obtain ⟨rv, hrv, hset⟩ := hr2
  subst hset
  by_cases hlen : i < rv.1.length
  · right
    rw [getD_set_self rv.1 i rv.2 none hlen] at hget
    rw [← hget]
    exact (List.of_mem_zip hrv).2
  · left
    rw [← hget]
    have hle : (rv.1.set i rv.2).length ≤ i := by
      rw [List.length_set]
      omega
    exact getD_of_length_le _ i none hle

theorem clip_within (lo hi : ℚ) (hlh : lo ≤ hi) (c : Cell) (q : ℚ)
    (h : clipHigh hi (clipLow lo c) = some (Val.num q)) : lo ≤ q ∧ q ≤ hi := by
  match c with
  | none => simp [clipLow, clipHigh] at h
  | some (.str s) => simp [clipLow, clipHigh] at h
  | some .medianFn => simp [clipLow, clipHigh] at h
  | some (.num x) =>
    simp only [clipLow] at h
    by_cases h1 : x < lo
    · rw [if_pos h1] at h
      simp only [clipHigh] at h
      rw [if_neg (not_lt.mpr hlh)] at h
      simp only [Option.some.injEq, Val.num.injEq] at h
      subst h
      exact ⟨le_refl lo, hlh⟩
    · rw [if_neg h1] at h
      simp only [clipHigh] at h
      by_cases h3 : x > hi
      · rw [if_pos h3] at h
        simp only [Option.some.injEq, Val.num.injEq] at h
        subst h
        exact ⟨hlh, le_refl hi⟩
      · rw [if_neg h3] at h
        simp only [Option.some.injEq, Val.num.injEq] at h
        subst h
        exact ⟨not_lt.mp h1, not_lt.mp h3⟩

/-- C5: whenever handle_outliers with the default clip-to-bound policy
succeeds, every number in the result column lies between the Tukey fences
Q1 - 1.5 IQR and Q3 + 1.5 IQR computed from the input column. -/
theorem handle_outliers_clip_in_bounds (d : DF) (col : String) (i : ℕ) (d2 : DF)
    (lo hi q : ℚ)
    (hcol : d.colIdx col = some i)
    (hok : handle_outliers d col "IQR" = .ok d2)
    (hb : iqrBounds (d.getColAt i) = some (lo, hi))
    (hq : some (Val.num q) ∈ d2.getColAt i) :
    lo ≤ q ∧ q ≤ hi := by
  unfold handle_outliers at hok
  rw [hcol] at hok
  simp only [hb] at hok
  cases hnn : hasNonNum (d.getColAt i) with
  | true => rw [hnn] at hok; simp at hok
  | false =>
    rw [hnn] at hok
    rw [if_neg (by decide : ¬ ("IQR" = "mode"))] at hok
    rw [if_neg (by decide : ¬ ("IQR" = "median"))] at hok
    simp only [Bool.false_eq_true, if_false, Except.ok.injEq] at hok
    subst hok
    rcases mem_getColAt_mapColAt d i _ _ hq with hnone | hmem
    · exact Option.noConfusion hnone
    · rw [List.mem_map] at hmem
      obtain ⟨c1, hc1, hcl⟩ := hmem
      rw [List.mem_map] at hc1
      obtain ⟨c0, _, hcl0⟩ := hc1
      subst hcl0
      exact clip_within lo hi (iqrBounds_lo_le_hi _ lo hi hb) c0 q hcl

/-- A concrete clipping instance for the witness: column x = 1, 2, 3, 100. -/
def dClipWitness : DF :=
  ⟨[("x", Dtype.numeric)],
   [[some (Val.num 1)], [some (Val.num 2)], [some (Val.num 3)], [some (Val.num 100)]]⟩

/-- Witness for handle_outliers_clip_in_bounds: on x = 1, 2, 3, 100 the fences
are -36.5 and 65.5 and the clipped value 65.5 of the outlier 100 lies inside. -/
theorem handle_outliers_clip_in_bounds_witness :
    (-36.5 : ℚ) ≤ 65.5 ∧ (65.5 : ℚ) ≤ 65.5 :=
  handle_outliers_clip_in_bounds dClipWitness "x" 0
    ⟨[("x", Dtype.numeric)],
     [[some (Val.num 1)], [some (Val.num 2)], [some (Val.num 3)], [some (Val.num 65.5)]]⟩
    (-36.5) 65.5 65.5
    (by with_unfolding_all decide) (by with_unfolding_all decide)
    (by with_unfolding_all decide) (by with_unfolding_all decide)
